import Mathlib

/-!
Shallow embedding of the core of `autotidal.py` (spotify-scrub repository):
the text normalizer, the tiered track-match resolver, the playlist
reconciliation engine and the selection logic, together with theorems that
settle the specification claims.

Python strings are modeled as lists of characters over the ASCII fragment:
there the `unicodedata.normalize('NFD', ...)` decomposition and the removal
of combining marks are the identity, `str.lower()` agrees with
`Char.toLower`, and the regex classes `\w` and `\s` are the explicit
character sets below.
-/

namespace AutoTidal

/-- Python strings, modeled as lists of characters. -/
abbrev Str := List Char

/-- Model of the regex class `\w` on the ASCII fragment: letters, digits and
underscore. -/
def isWordChar (c : Char) : Bool := c.isAlphanum || c == '_'

/-- Model of the regex class `\s` (also the character set stripped by Python
`str.strip()`) on the ASCII fragment: space, tab, newline, carriage return,
vertical tab and form feed. -/
def isSpaceChar (c : Char) : Bool :=
  c == ' ' || c == '\t' || c == '\n' || c == '\r' ||
  c == Char.ofNat 11 || c == Char.ofNat 12

/-- Python `str.lower()` on the ASCII fragment. -/
def toLowerStr (s : Str) : Str := s.map Char.toLower

/-- Python substring test `p in l`. -/
def occursIn (p : Str) : Str → Bool
  | [] => p.isPrefixOf []
  | c :: r => p.isPrefixOf (c :: r) || occursIn p r

/-- Python `str.strip()`: drop whitespace from both ends. -/
def trimStr (s : Str) : Str :=
  ((s.dropWhile fun c => isSpaceChar c).reverse.dropWhile fun c => isSpaceChar c).reverse

/-- One-pass model of `re.sub(r'\([^)]*\)', '', text)`. Reading left to
right: a `(` starts buffering; the first `)` while buffering discards the
buffered span (the regex match); an unmatched `(` is flushed literally at
the end. `buf` holds, reversed, the characters read since the pending `(`. -/
def rpAux : Option Str → Str → Str
  | none, [] => []
  | some buf, [] => buf.reverse
  | none, c :: r => if c == '(' then rpAux (some [c]) r else c :: rpAux none r
  | some buf, c :: r => if c == ')' then rpAux none r else rpAux (some (c :: buf)) r

/-- The parenthesis-stripping step of `normalize_text` and `clean_track_name`. -/
def removeParens (s : Str) : Str := rpAux none s

/-- Try one alternative of `\b(feat|featuring|ft)\.?\s` at the head of `l`
(the starting word boundary is the caller's concern): the literal, an
optional `.`, then one whitespace character, all consumed. Taking the dot
greedily and then requiring whitespace agrees with the regex engine's
backtracking, because `.` itself is not a whitespace character. -/
def tryFeatTok (lit : Str) (l : Str) : Option Str :=
  if lit.isPrefixOf l then
    let r := l.drop lit.length
    let r' := match r with
      | '.' :: rr => rr
      | _ => r
    match r' with
    | c :: rr => if isSpaceChar c then some rr else none
    | [] => none
  else none

/-- The alternation `feat|featuring|ft` in Python's order. The alternatives
are mutually exclusive at any one position, since each requires a distinct
character right after the shared prefix. -/
def matchFeat (l : Str) : Option Str :=
  (tryFeatTok "feat".data l).orElse fun _ =>
    (tryFeatTok "featuring".data l).orElse fun _ =>
      tryFeatTok "ft".data l

/-- Scanner for `re.sub(r'\b(feat|featuring|ft)\.?\s', '', text)`. The flag
`w` records whether the previous character is a word character; all the
alternatives start with the word character `f`, so the boundary `\b` holds
at the scan position iff `w` is false. After a removal the scan resumes
after the consumed whitespace character, hence with `w` false. Each step
consumes at least one character, so `fuel = length` suffices. -/
def featGo : Nat → Bool → Str → Str
  | 0, _, l => l
  | _ + 1, _, [] => []
  | fuel + 1, w, c :: r =>
    if w then c :: featGo fuel (isWordChar c) r
    else
      match matchFeat (c :: r) with
      | some rem => featGo fuel false rem
      | none => c :: featGo fuel (isWordChar c) r

/-- Try one alternative of `\b(remix|remaster|remastered)\b` at the head of
`l`: the literal followed by a word boundary, which is not consumed. -/
def tryWordTok (lit : Str) (l : Str) : Option Str :=
  if lit.isPrefixOf l then
    let r := l.drop lit.length
    match r with
    | [] => some []
    | c :: _ => if isWordChar c then none else some r
  else none

/-- The alternation `remix|remaster|remastered` in Python's order; with the
trailing boundary check the three alternatives are mutually exclusive. -/
def matchRemix (l : Str) : Option Str :=
  (tryWordTok "remix".data l).orElse fun _ =>
    (tryWordTok "remaster".data l).orElse fun _ =>
      tryWordTok "remastered".data l

/-- Scanner for `re.sub(r'\b(remix|remaster|remastered)\b', '', text)`.
After a removal the character before the scan position is the final letter
of the removed word, so the scan resumes with `w` true. -/
def remixGo : Nat → Bool → Str → Str
  | 0, _, l => l
  | _ + 1, _, [] => []
  | fuel + 1, w, c :: r =>
    if w then c :: remixGo fuel (isWordChar c) r
    else
      match matchRemix (c :: r) with
      | some rem => remixGo fuel true rem
      | none => c :: remixGo fuel (isWordChar c) r

/-- The punctuation-stripping step `re.sub(r'[^\w\s]', '', text)`. -/
def stripPunct (s : Str) : Str := s.filter fun c => isWordChar c || isSpaceChar c

/-- The three literals of the feat-removal alternation. -/
def featLits : List Str := ["feat".data, "featuring".data, "ft".data]

/-- The three literals of the remix-removal alternation. -/
def remixLits : List Str := ["remix".data, "remaster".data, "remastered".data]

/-- All keyword literals removed by `normalize_text`. -/
def keywordLits : List Str := featLits ++ remixLits

/-- One step of grouping a string into maximal whitespace-free runs. -/
def groupStep (c : Char) (acc : List Str) : List Str :=
  if isSpaceChar c then [] :: acc
  else
    match acc with
    | [] => [[c]]
    | g :: gs => (c :: g) :: gs

/-- Python `str.split()`: the maximal whitespace-free runs of `s`, in order. -/
def wordsOf (s : Str) : List Str := (s.foldr groupStep []).filter fun w => !w.isEmpty

/-- Join words with single spaces. -/
def joinWords : List Str → Str
  | [] => []
  | [w] => w
  | w :: ws => w ++ ' ' :: joinWords ws

/-- The whitespace step `re.sub(r'\s+', ' ', text).strip()`: every maximal
whitespace run becomes one space and outer whitespace is dropped, which is
exactly rejoining the whitespace-free runs with single spaces. -/
def collapseSpaces (s : Str) : Str := joinWords (wordsOf s)

/-- Model of `normalize_text` (autotidal.py, lines 18-39). On the ASCII
fragment the NFD decomposition and combining-mark removal are the identity,
so the pipeline is: lowercase; strip parenthesized substrings; remove
feat/featuring/ft tokens; remove remix/remaster/remastered words; strip
punctuation; collapse whitespace and trim. The empty string maps to itself,
which subsumes the initial falsy-input check. -/
def normalize_text (s : Str) : Str :=
  let a := toLowerStr s
  let b := removeParens a
  let c := featGo b.length false b
  let d := remixGo c.length false c
  let e := stripPunct d
  collapseSpaces e

/-- Model of `clean_track_name` (autotidal.py, lines 42-54): strip
parenthesized substrings (NFD is the identity on ASCII), then trim
surrounding whitespace. Case and punctuation are preserved. -/
def clean_track_name (s : Str) : Str := trimStr (removeParens s)

/-- The separator list of `get_primary_artist`, in source order. -/
def artistSeparators : List Str :=
  [", ".data, " & ".data, " and ".data, " feat. ".data, " feat ".data,
   " featuring ".data, " ft. ".data, " ft ".data]

/-- Python `s.split(sep)[0]` for a nonempty `sep`: the prefix of `s` before
the first occurrence of `sep`, or all of `s` when `sep` does not occur. -/
def splitHead (s : Str) (sep : Str) : Str :=
  match s with
  | [] => []
  | c :: r => if sep.isPrefixOf (c :: r) then [] else c :: splitHead r sep

/-- The separator loop of `get_primary_artist`: each separator is tested
against the lowercased string, but the split is performed on the original
string; the loop stops at the first separator that passes the test. -/
def gpaLoop : List Str → Str → Str
  | [], pa => pa
  | sep :: rest, pa =>
    if occursIn sep (toLowerStr pa) then splitHead pa sep else gpaLoop rest pa

/-- Model of `get_primary_artist` (autotidal.py, lines 57-71). -/
def get_primary_artist (s : Str) : Str :=
  if s.isEmpty then [] else trimStr (gpaLoop artistSeparators s)

/-- Model of `fuzzy_match_words` (autotidal.py, lines 74-89). The Python
float division and comparison are modeled over the rationals. -/
def fuzzy_match_words (t1 t2 : Str) (threshold : ℚ) : Bool :=
  let words1 := (wordsOf (normalize_text t1)).toFinset
  let words2 := (wordsOf (normalize_text t2)).toFinset
  if words1 = ∅ ∨ words2 = ∅ then false
  else
    let common := words1 ∩ words2
    let maxWords := max words1.card words2.card
    decide ((common.card : ℚ) / (maxWords : ℚ) ≥ threshold)

/-- The default word-overlap threshold `0.7`, the only one used by the
resolver. -/
def defaultThreshold : ℚ := 7 / 10

/-! ## The match resolver (`find_best_track_match`, `search_track_in_album`) -/

/-- A destination-catalog track candidate as seen by the resolver. The outer
`Option` of `isrcAttr` models the attribute test `hasattr(result_track,
'isrc')`; the inner one models a present attribute whose value may be
Python `None`. -/
structure Candidate where
  id : Nat
  name : Str
  isrcAttr : Option (Option Str)
  deriving DecidableEq, Repr

/-- A destination-catalog album. `tracksRes = none` models `album.tracks()`
raising (the exception is swallowed by `search_track_in_album`). -/
structure AlbumC where
  tracksRes : Option (List Candidate)
  deriving DecidableEq, Repr

/-- A source track record, one CSV row as assembled by
`get_playlist_tracks`: `isrc` is `none` where the cell was blank. -/
structure SrcTrack where
  playlist_name : Str
  track_name : Str
  artist_names : Str
  album_name : Option Str
  isrc : Option Str
  deriving DecidableEq, Repr

/-- The external search interface of the destination catalog
(`session.search` for tracks and for albums), modeled as a total oracle. -/
structure SessionO where
  searchTracks : Str → List Candidate
  searchAlbums : Str → List AlbumC

/-- Python falsy test `not x` for an optional string field. -/
def strFalsy : Option Str → Bool
  | none => true
  | some s => s.isEmpty

/-- The album loop of `search_track_in_album`: for each album in order, call
`album.tracks()` (one counted call per album, raising calls swallowed) and
accept the first listed track passing the word-overlap test against the
cleaned name. Returns the result and the number of `tracks()` calls. -/
def albumLoop (cleaned : Str) : List AlbumC → Option Candidate × Nat
  | [] => (none, 0)
  | alb :: rest =>
    match alb.tracksRes with
    | none =>
      let p := albumLoop cleaned rest
      (p.1, p.2 + 1)
    | some ts =>
      match ts.find? fun tr => fuzzy_match_words tr.name cleaned defaultThreshold with
      | some tr => (some tr, 1)
      | none =>
        let p := albumLoop cleaned rest
        (p.1, p.2 + 1)

/-- Model of `search_track_in_album` (autotidal.py, lines 92-116): skip when
the album name is falsy, otherwise issue one album search and scan the
first three returned albums. Returns the result, the number of search
queries (0 or 1) and the number of `album.tracks()` calls. The outer
`try/except` only matters for a raising search, which the total oracle does
not model. -/
def search_track_in_album (o : SessionO) (t : SrcTrack) (cleaned : Str) :
    Option Candidate × Nat × Nat :=
  if strFalsy t.album_name then (none, 0, 0)
  else
    let q := t.album_name.getD [] ++ ' ' :: t.artist_names
    let albums := o.searchAlbums q
    let p := albumLoop cleaned (albums.take 3)
    (p.1, 1, p.2)

/-- Tier 1 of the resolver (Exact-ISRC, autotidal.py lines 127-133): among
the top five candidates, the first whose `isrc` attribute is present and
whose value equals the source `isrc` value. A candidate without the
attribute is a non-match (the `hasattr` guard together with the
`try/except pass`); the source value is not required to be present. -/
def tier1Find (srcIsrc : Option Str) (cands : List Candidate) : Option Candidate :=
  (cands.take 5).find? fun c =>
    match c.isrcAttr with
    | some v => v == srcIsrc
    | none => false

/-- Tier 2 (exact name, lines 135-138): first of the top five whose
lowercased, trimmed name equals the lowercased, trimmed source name. -/
def tier2Find (name : Str) (cands : List Candidate) : Option Candidate :=
  (cands.take 5).find? fun c =>
    trimStr (toLowerStr c.name) == trimStr (toLowerStr name)

/-- The fuzzy scan used by tiers 3 and 4: first of the top five passing the
word-overlap test against the cleaned track name. -/
def tierFuzzyFind (cleaned : Str) (cands : List Candidate) : Option Candidate :=
  (cands.take 5).find? fun c => fuzzy_match_words c.name cleaned defaultThreshold

/-- The first search query `f"{track_name} {artist_names}"`. -/
def trackQuery (t : SrcTrack) : Str := t.track_name ++ ' ' :: t.artist_names

/-- Model of `find_best_track_match` (autotidal.py, lines 119-172),
instrumented with the number of `session.search` queries (second component)
and `album.tracks()` calls (third component) actually issued, respecting
the early returns of the source: one unconditional track search; a second
one only when the cleaned name differs (otherwise the first result list is
reused); a third only when the primary artist differs; then the album
search. -/
def find_best_track_match (o : SessionO) (t : SrcTrack) :
    Option Candidate × Nat × Nat :=
  let r1 := o.searchTracks (trackQuery t)
  let t12 :=
    if r1.isEmpty then none
    else
      match tier1Find t.isrc r1 with
      | some c => some c
      | none => tier2Find t.track_name r1
  match t12 with
  | some c => (some c, 1, 0)
  | none =>
    let cleaned := clean_track_name t.track_name
    let s2 :=
      if cleaned ≠ t.track_name then (o.searchTracks (cleaned ++ ' ' :: t.artist_names), 1)
      else (r1, 0)
    match (if s2.1.isEmpty then none else tierFuzzyFind cleaned s2.1) with
    | some c => (some c, 1 + s2.2, 0)
    | none =>
      let primary := get_primary_artist t.artist_names
      let s3 :=
        if primary ≠ t.artist_names then
          let r3 := o.searchTracks (cleaned ++ ' ' :: primary)
          ((if r3.isEmpty then none else tierFuzzyFind cleaned r3), 1)
        else (none, 0)
      match s3.1 with
      | some c => (some c, 1 + s2.2 + s3.2, 0)
      | none =>
        let s5 := search_track_in_album o t cleaned
        (s5.1, 1 + s2.2 + s3.2 + s5.2.1, s5.2.2)

/-! ## Unique playlist names (`get_unique_playlist_name`) -/

/-- Decimal digit characters, as produced by Python `str(n)`. -/
def digitChar : Nat → Char
  | 0 => '0' | 1 => '1' | 2 => '2' | 3 => '3' | 4 => '4'
  | 5 => '5' | 6 => '6' | 7 => '7' | 8 => '8' | 9 => '9'
  | _ + 10 => '*'

/-- Decimal rendering with explicit fuel (each step divides by ten, so any
fuel of at least one plus the number suffices). -/
def natCharsAux : Nat → Nat → Str
  | 0, _ => []
  | fuel + 1, n =>
    if n < 10 then [digitChar n]
    else natCharsAux fuel (n / 10) ++ [digitChar (n % 10)]

/-- Python `str(n)` for a natural number. -/
def natChars (n : Nat) : Str := natCharsAux (n + 1) n

/-- Reading a decimal rendering back. -/
def decodeChars (l : Str) : Nat := l.foldl (fun a c => a * 10 + (c.toNat - 48)) 0

theorem decode_digitChar {n : Nat} (h : n < 10) : (digitChar n).toNat - 48 = n := by
  interval_cases n <;> decide

theorem decode_natCharsAux :
    ∀ fuel n, n ≤ fuel → decodeChars (natCharsAux (fuel + 1) n) = n := by
  intro fuel
  induction fuel with
  | zero =>
    intro n hn
    have h0 : n = 0 := Nat.le_zero.mp hn
    subst h0
    decide
  | succ fuel ih =>
    intro n hn
    by_cases h : n < 10
    · simp only [natCharsAux, if_pos h, decodeChars, List.foldl]
      simpa using decode_digitChar h
    · have hd : n / 10 ≤ fuel := by omega
      have hrw : natCharsAux (fuel + 1 + 1) n
          = natCharsAux (fuel + 1) (n / 10) ++ [digitChar (n % 10)] := by
        show (if n < 10 then [digitChar n]
          else natCharsAux (fuel + 1) (n / 10) ++ [digitChar (n % 10)]) = _
        rw [if_neg h]
      have := ih (n / 10) hd
      simp only [decodeChars] at this ⊢
      rw [hrw, List.foldl_append, this]
      simp only [List.foldl]
      rw [decode_digitChar (Nat.mod_lt n (by omega))]
      omega

theorem decode_natChars (n : Nat) : decodeChars (natChars n) = n :=
  decode_natCharsAux n n (Nat.le_refl n)

theorem natChars_injective : Function.Injective natChars :=
  Function.LeftInverse.injective decode_natChars

/-- The f-string `f"{desired_name} version {version}"`. -/
def versionedName (desired : Str) (v : Nat) : Str :=
  desired ++ " version ".data ++ natChars v

theorem versionedName_injective (desired : Str) :
    Function.Injective (versionedName desired) := by
  intro a b h
  unfold versionedName at h
  simp only [List.append_assoc] at h
  exact natChars_injective (List.append_cancel_left (List.append_cancel_left h))

/-- The loop of `get_unique_playlist_name` terminates: the versioned names
are pairwise distinct while the existing-name list is finite, so some
version number starting from 2 is free. -/
theorem exists_free_version (existing : List Str) (desired : Str) :
    ∃ k : Nat, versionedName desired (2 + k) ∉ existing := by
  by_contra hcon
  push_neg at hcon
  have hinj : Function.Injective fun k => versionedName desired (2 + k) := by
    intro a b h
    have := versionedName_injective desired h
    omega
  have hinf : (Set.range fun k => versionedName desired (2 + k)).Infinite :=
    Set.infinite_range_of_injective hinj
  have hsub : (Set.range fun k => versionedName desired (2 + k)) ⊆ {x | x ∈ existing} := by
    rintro x ⟨k, rfl⟩
    exact hcon k
  exact hinf (existing.finite_toSet.subset hsub)

/-- Model of `get_unique_playlist_name` (autotidal.py, lines 339-354): the
desired name when unused, otherwise the first free `"<name> version N"`
with `N` counting up from 2; the unbounded `while True` loop is rendered by
the least free offset, which exists by `exists_free_version`. -/
def get_unique_playlist_name (existing : List Str) (desired : Str) : Str :=
  if desired ∈ existing then
    versionedName desired (2 + Nat.find (exists_free_version existing desired))
  else desired

/-! ## The reconciliation engine (`create_tidal_playlist`) -/

/-- Outcome of one `playlist.add([...])` attempt: success, or an exception
carrying the Python `str(e)` message. -/
inductive AddOutcome where
  | ok
  | exn (msg : Str)
  deriving DecidableEq, Repr

/-- Observable interactions of the per-track loop: a call into
`find_best_track_match` (hence into `session.search`), a `playlist.add`
attempt, and a `write_not_found_track` ledger write with its reason. -/
inductive Ev where
  | resolveCall
  | addCall
  | ledgerWrite (reason : Str)
  deriving DecidableEq, Repr

/-- A not-found entry as appended to the in-memory `not_found` list. -/
structure Entry where
  name : Str
  artist : Str
  reason : Str
  deriving DecidableEq, Repr

/-- Environment of the per-track loop: the resolver call at its boundary
(a `.error` models `find_best_track_match` raising, caught per track), the
outcome of the k-th add attempt for a track, the interactive consent to
re-authenticate, and whether the playlist is found again by name after
re-authentication. Re-authentication itself is assumed to succeed
(`authenticate_tidal` exits the process on failure). -/
structure EngineEnv where
  resolve : SrcTrack → Except Str (Option Candidate)
  add : SrcTrack → Nat → AddOutcome
  consent : Bool
  relookupFinds : Bool

/-- The 412 signature test of line 420:
`"412" in error_str and "Client Error" in error_str`. -/
def is412 (msg : Str) : Bool :=
  occursIn "412".data msg && occursIn "Client Error".data msg

/-- The composite key `f"{track_name}|{artist_names}"`. -/
def trackKey (t : SrcTrack) : Str := t.track_name ++ '|' :: t.artist_names

/-- Reason string of line 386. -/
def blankIsrcReason : Str := "isrc blank in input".data

/-- Reason string of line 467. -/
def notFoundReason : Str := "track not found on Tidal".data

/-- Reason built by the outer per-track handler, line 476. -/
def searchErrorPre : Str := "search error: ".data

/-- Message of the unbound-local error raised by line 459: Python deletes
the `except ... as add_error` binding when that except block is exited
(including via `continue`), so after the retry loop exhausts,
`f"error after retries: {str(add_error)}"` raises before any ledger write
and the outer per-track handler logs this message instead. The exact text
is Python-version dependent (quotes omitted here); no theorem depends on
it. -/
def unboundLocalMsg : Str :=
  "cannot access local variable add_error where it is not associated with a value".data

/-- Message of the exception raised at line 445 when the playlist is not
found after re-authentication (quotes around the name omitted). -/
def relookupFailMsg (uname : Str) : Str :=
  "Could not find playlist ".data ++ uname ++ " after re-authentication".data

/-- Result of processing one source track inside the loop: continue with
the emitted events, the optional not-found entry and the optional key to
record as added, or halt the whole run (`sys.exit(0)`). -/
inductive StepRes where
  | cont (evs : List Ev) (entry : Option Entry) (addedKey : Option Str)
  | halt (evs : List Ev)
  deriving DecidableEq, Repr

/-- A not-found entry for a track, as built at lines 387, 460, 468, 477. -/
def errEntry (t : SrcTrack) (reason : Str) : Entry :=
  ⟨t.track_name, t.artist_names, reason⟩

/-- The add-retry loop (lines 407-464) with its literal `max_retries = 1`,
unrolled. Attempt 0; on a 412-signature failure with consent and a
successful playlist re-lookup, attempt 1; a second 412 with consent and
re-lookup exhausts the loop, after which line 459 raises the unbound-local
error (`unboundLocalMsg`); a non-412 failure is re-raised (line 455), and a
failed re-lookup raises (line 445). Every raise lands in the outer
per-track handler (line 474), which logs `"search error: "` plus the
message. Declining consent is `sys.exit(0)` (line 452). -/
def addPhase (env : EngineEnv) (uname : Str) (t : SrcTrack) : StepRes :=
  match env.add t 0 with
  | .ok => .cont [.resolveCall, .addCall] none (some (trackKey t))
  | .exn m =>
    if is412 m then
      if env.consent then
        if env.relookupFinds then
          match env.add t 1 with
          | .ok => .cont [.resolveCall, .addCall, .addCall] none (some (trackKey t))
          | .exn m2 =>
            if is412 m2 then
              if env.consent then
                if env.relookupFinds then
                  .cont [.resolveCall, .addCall, .addCall,
                      .ledgerWrite (searchErrorPre ++ unboundLocalMsg)]
                    (some (errEntry t (searchErrorPre ++ unboundLocalMsg))) none
                else
                  .cont [.resolveCall, .addCall, .addCall,
                      .ledgerWrite (searchErrorPre ++ relookupFailMsg uname)]
                    (some (errEntry t (searchErrorPre ++ relookupFailMsg uname))) none
              else .halt [.resolveCall, .addCall, .addCall]
            else
              .cont [.resolveCall, .addCall, .addCall,
                  .ledgerWrite (searchErrorPre ++ m2)]
                (some (errEntry t (searchErrorPre ++ m2))) none
        else
          .cont [.resolveCall, .addCall,
              .ledgerWrite (searchErrorPre ++ relookupFailMsg uname)]
            (some (errEntry t (searchErrorPre ++ relookupFailMsg uname))) none
      else .halt [.resolveCall, .addCall]
    else
      .cont [.resolveCall, .addCall, .ledgerWrite (searchErrorPre ++ m)]
        (some (errEntry t (searchErrorPre ++ m))) none

/-- One iteration of the per-track loop (lines 378-481): the blank-ISRC
gate (lines 384-392), then the run-scoped duplicate skip (lines 394-399),
then resolution and the add phase, with per-track exception handling. -/
def processTrack (env : EngineEnv) (uname : Str) (added : List Str) (t : SrcTrack) : StepRes :=
  if strFalsy t.isrc then
    .cont [.ledgerWrite blankIsrcReason] (some (errEntry t blankIsrcReason)) none
  else if trackKey t ∈ added then
    .cont [] none none
  else
    match env.resolve t with
    | .error m =>
      .cont [.resolveCall, .ledgerWrite (searchErrorPre ++ m)]
        (some (errEntry t (searchErrorPre ++ m))) none
    | .ok none =>
      .cont [.resolveCall, .ledgerWrite notFoundReason]
        (some (errEntry t notFoundReason)) none
    | .ok (some _) => addPhase env uname t

/-- Cumulative outcome of the per-track loop. -/
structure RunOut where
  evs : List Ev
  notFound : List Entry
  halted : Bool
  deriving DecidableEq, Repr

/-- The per-track loop over a track list, threading the run-scoped
`added_tracks` set (modeled as a list of keys). A halt (`sys.exit(0)`)
stops everything; events of later tracks are never emitted. -/
def processTracks (env : EngineEnv) (uname : Str) : List SrcTrack → List Str → RunOut
  | [], _ => ⟨[], [], false⟩
  | t :: ts, added =>
    match processTrack env uname added t with
    | .halt evs => ⟨evs, [], true⟩
    | .cont evs ent key =>
      let rest := processTracks env uname ts
        (match key with | some k => k :: added | none => added)
      ⟨evs ++ rest.evs, ent.toList ++ rest.notFound, rest.halted⟩

/-- Environment of the pre-loop phase of `create_tidal_playlist`:
the result of `user.playlists()` inside `get_unique_playlist_name` and the
result of `user.create_playlist(...)`, each possibly raising. -/
structure CreateEnv where
  playlistsRes : Except Str (List Str)
  createRes : Except Str Unit
  engine : EngineEnv

/-- Final value of `create_tidal_playlist`: the normal not-found list, the
raw input track list returned by the exception handler at line 490, or a
process exit from inside the loop. -/
inductive CreateOut where
  | completed (notFound : List Entry) (evs : List Ev)
  | returnedTracks (tracks : List SrcTrack)
  | exited (evs : List Ev)
  deriving DecidableEq, Repr

/-- Message of the unbound-local error raised by the handler itself at line
489 when `unique_playlist_name` was never assigned (quotes omitted; the
text is Python-version dependent and no theorem depends on it). -/
def handlerUnboundMsg : Str :=
  "cannot access local variable unique_playlist_name where it is not associated with a value".data

/-- Model of `create_tidal_playlist` (autotidal.py, lines 357-490). A
`.error` result models an exception escaping the function: when
`user.playlists()` raises inside `get_unique_playlist_name`, the handler at
line 489 formats `unique_playlist_name`, a local never assigned on that
path, so the handler raises an unbound-local error instead of returning.
When `create_playlist` raises (the name is bound by then), the handler
prints and returns the raw input track list, with no ledger writes.
`sys.exit(0)` from the loop is the `exited` outcome: `SystemExit` is not an
`Exception`, so it passes the handler and ends the process. -/
def create_tidal_playlist (env : CreateEnv) (playlistName : Str)
    (tracks : List SrcTrack) : Except Str CreateOut :=
  match env.playlistsRes with
  | .error _ => .error handlerUnboundMsg
  | .ok names =>
    let uname := get_unique_playlist_name names playlistName
    match env.createRes with
    | .error _ => .ok (.returnedTracks tracks)
    | .ok _ =>
      let r := processTracks env.engine uname tracks []
      if r.halted then .ok (.exited r.evs) else .ok (.completed r.notFound r.evs)

/-! ## Playlist selection order (`parse_playlist_selection`, `main`) -/

/-- One comma-separated part of the selection input after lexing: a plain
number, an `a-b` range, or an invalid part (warned and skipped). -/
inductive Token where
  | num (n : Nat)
  | range (a b : Nat)
  | bad
  deriving DecidableEq, Repr

/-- What one part adds to the selected set (autotidal.py, lines 273-294):
an in-bounds number, or an in-bounds nonempty range `start..end`. -/
def tokenContrib (maxNum : Nat) : Token → Finset Nat
  | .num n => if 1 ≤ n ∧ n ≤ maxNum then {n} else ∅
  | .range a b =>
    if 1 ≤ a ∧ a ≤ maxNum ∧ 1 ≤ b ∧ b ≤ maxNum ∧ a ≤ b then Finset.Icc a b else ∅
  | .bad => ∅

/-- Model of `parse_playlist_selection` (autotidal.py, lines 266-296): the
Python set of selected indices, built part by part. -/
def parse_playlist_selection (tokens : List Token) (maxNum : Nat) : Finset Nat :=
  tokens.foldl (fun s tok => s ∪ tokenContrib maxNum tok) ∅

/-- The processing order of `main` (line 547):
`[playlists[i-1] for i in sorted(selected_indices)]`. -/
def selectedPlaylists (playlists : List α) (sel : Finset Nat) : List α :=
  ((sel.sort (· ≤ ·)).map fun i => playlists.get? (i - 1)).reduceOption

/-- The playlist processing order as a function of the lexed user input. -/
def mainOrder (playlists : List α) (tokens : List Token) : List α :=
  selectedPlaylists playlists (parse_playlist_selection tokens playlists.length)

/-- The order in which the user listed the selections, read off the input
tokens; claim-side definition, used only to state what the claim predicts. -/
def userListedOrder (playlists : List α) (tokens : List Token) : List α :=
  (tokens.map fun tok =>
    match tok with
    | Token.num n => playlists.get? (n - 1)
    | _ => none).reduceOption

/-! ## Concrete data used by witnesses and counterexamples -/

/-- A session oracle whose every search comes back empty. -/
def oEmpty : SessionO := ⟨fun _ => [], fun _ => []⟩

/-- A worst-case source track for the search-call count: parenthesized
title (cleaned name differs), multi-artist string (primary artist differs)
and an album name present. -/
def tWorst : SrcTrack :=
  ⟨"P".data, "Song (Live)".data, "A, B".data, some "Alb".data, some "US123".data⟩

/-- A candidate that exposes the `isrc` attribute with value Python `None`. -/
def cNullIsrc : Candidate := ⟨7, "Whatever".data, some none⟩

/-- An oracle whose track search returns only `cNullIsrc`. -/
def oNullIsrc : SessionO := ⟨fun _ => [cNullIsrc], fun _ => []⟩

/-- A source track whose ISRC is absent. -/
def tNoIsrc : SrcTrack := ⟨"P".data, "Song".data, "Art".data, none, none⟩

/-- A candidate carrying an ISRC equal to `tWithIsrc`'s. -/
def cWithIsrc : Candidate := ⟨3, "Other Name".data, some (some "US123".data)⟩

/-- An oracle whose track search returns only `cWithIsrc`. -/
def oWithIsrc : SessionO := ⟨fun _ => [cWithIsrc], fun _ => []⟩

/-- A source track carrying the same ISRC as `cWithIsrc`. -/
def tWithIsrc : SrcTrack :=
  ⟨"P".data, "Song".data, "Art".data, none, some "US123".data⟩

/-- A resolved candidate used by the engine scenarios. -/
def cFound : Candidate := ⟨1, "N".data, none⟩

/-- Engine environment where resolution succeeds and every add attempt
raises a non-412 exception with message `boom`. -/
def envBoom : EngineEnv :=
  ⟨fun _ => .ok (some cFound), fun _ _ => .exn "boom".data, true, true⟩

/-- A normal source track processed by the engine scenarios. -/
def tPlain : SrcTrack := ⟨"P".data, "N".data, "Art".data, none, some "US1".data⟩

/-- A source track whose ISRC cell is blank (Python empty string). -/
def tBlankIsrc : SrcTrack := ⟨"P".data, "M".data, "Art2".data, none, some "".data⟩

/-- Pre-loop environment where `user.playlists()` raises. -/
def ceFailLookup : CreateEnv := ⟨.error "network down".data, .ok (), envBoom⟩

/-- Pre-loop environment where `user.create_playlist` raises. -/
def ceFailCreate : CreateEnv := ⟨.ok [], .error "create failed".data, envBoom⟩

/-- A three-element displayed playlist list. -/
def threePlaylists : List Str := ["A".data, "B".data, "C".data]


/-! ## Claim C6: the word-overlap scorer -/

/-- C6: for all texts `a`, `b` and any threshold, `fuzzy_match_words`
returns true iff both normalized token sets are non-empty and
the ratio of the intersection size to the larger set size is at least the
threshold; in particular it returns false whenever either token set is
empty (the iff forces the conjuncts, so an empty side refutes the right
side). -/
theorem C6_word_overlap_iff (a b : Str) (θ : ℚ) :
    fuzzy_match_words a b θ = true ↔
      ((wordsOf (normalize_text a)).toFinset ≠ ∅ ∧
       (wordsOf (normalize_text b)).toFinset ≠ ∅ ∧
       θ ≤ (((wordsOf (normalize_text a)).toFinset ∩
              (wordsOf (normalize_text b)).toFinset).card : ℚ) /
            (max (wordsOf (normalize_text a)).toFinset.card
              (wordsOf (normalize_text b)).toFinset.card : ℚ)) := by
  unfold fuzzy_match_words
  dsimp only
  split_ifs with h
  · simp only [Bool.false_eq_true, false_iff]
    rintro ⟨h1, h2, -⟩
    rcases h with h | h
    · exact h1 h
    · exact h2 h
  · push_neg at h
    simp [h.1, h.2, ge_iff_le, Nat.cast_max]

/-! ## Claim C9: unique playlist names -/

/-- C9: an unused desired name is kept as-is; on a collision the name
`"<name> version N"` is used with `N` the least number starting at 2 whose
versioned name is unused; the returned name never collides with an
existing one (nothing is overwritten, and by `exists_free_version` the
search cannot fail); a first collision on `Favorites` yields
`Favorites version 2` and a second yields `Favorites version 3`. -/
theorem C9_unique_playlist_name (existing : List Str) (desired : Str) :
    (desired ∉ existing → get_unique_playlist_name existing desired = desired) ∧
    (desired ∈ existing →
      ∃ N, 2 ≤ N ∧
        get_unique_playlist_name existing desired = versionedName desired N ∧
        versionedName desired N ∉ existing ∧
        ∀ m, 2 ≤ m → m < N → versionedName desired m ∈ existing) ∧
    get_unique_playlist_name existing desired ∉ existing ∧
    get_unique_playlist_name ["Favorites".data] "Favorites".data
      = "Favorites version 2".data ∧
    get_unique_playlist_name ["Favorites".data, "Favorites version 2".data] "Favorites".data
      = "Favorites version 3".data := by
  have general : ∀ (ex : List Str) (d : Str),
      (d ∉ ex → get_unique_playlist_name ex d = d) ∧
      (d ∈ ex →
        ∃ N, 2 ≤ N ∧
          get_unique_playlist_name ex d = versionedName d N ∧
          versionedName d N ∉ ex ∧
          ∀ m, 2 ≤ m → m < N → versionedName d m ∈ ex) ∧
      get_unique_playlist_name ex d ∉ ex := by
    intro ex d
    by_cases hmem : d ∈ ex
    · refine ⟨fun hn => absurd hmem hn, fun _ => ?_, ?_⟩
      · refine ⟨2 + Nat.find (exists_free_version ex d), by omega, ?_, ?_, ?_⟩
        · simp [get_unique_playlist_name, hmem]
        · exact Nat.find_spec (exists_free_version ex d)
        · intro m h2 hlt
          have hk : m - 2 < Nat.find (exists_free_version ex d) := by omega
          have := Nat.find_min (exists_free_version ex d) hk
          simp only [not_not] at this
          have hm : 2 + (m - 2) = m := by omega
          rwa [hm] at this
      · simp only [get_unique_playlist_name, if_pos hmem]
        exact Nat.find_spec (exists_free_version ex d)
    · refine ⟨fun _ => by simp [get_unique_playlist_name, hmem], fun h => absurd h hmem, ?_⟩
      simp [get_unique_playlist_name, hmem]
  have hfav1 : get_unique_playlist_name ["Favorites".data] "Favorites".data
      = "Favorites version 2".data := by
    have hmem : "Favorites".data ∈ ["Favorites".data] := by decide
    have hfind : Nat.find (exists_free_version ["Favorites".data] "Favorites".data) = 0 := by
      rw [Nat.find_eq_zero]
      decide
    simp only [get_unique_playlist_name, if_pos hmem, hfind]
    decide
  have hfav2 : get_unique_playlist_name
      ["Favorites".data, "Favorites version 2".data] "Favorites".data
      = "Favorites version 3".data := by
    have hmem : "Favorites".data ∈ ["Favorites".data, "Favorites version 2".data] := by decide
    have hfind :
        Nat.find (exists_free_version
          ["Favorites".data, "Favorites version 2".data] "Favorites".data) = 1 := by
      rw [Nat.find_eq_iff]
      refine ⟨by decide, ?_⟩
      intro n hn
      have hn0 : n = 0 := by omega
      subst hn0
      decide
    simp only [get_unique_playlist_name, if_pos hmem, hfind]
    decide
  exact ⟨(general existing desired).1, (general existing desired).2.1,
    (general existing desired).2.2, hfav1, hfav2⟩

/-- Witness for C9: both hypothesis branches discharged at concrete
inputs. -/
theorem C9_unique_playlist_name_witness :
    get_unique_playlist_name [] "X".data = "X".data ∧
    ∃ N, 2 ≤ N ∧
      get_unique_playlist_name ["Favorites".data] "Favorites".data
        = versionedName "Favorites".data N ∧
      versionedName "Favorites".data N ∉ ["Favorites".data] ∧
      ∀ m, 2 ≤ m → m < N → versionedName "Favorites".data m ∈ ["Favorites".data] :=
  ⟨(C9_unique_playlist_name [] "X".data).1 (by decide),
   (C9_unique_playlist_name ["Favorites".data] "Favorites".data).2.1 (by decide)⟩

/-! ## Claim C5: primary-artist extraction -/

theorem gpaLoop_eq_find (seps : List Str) (pa : Str) :
    gpaLoop seps pa =
      match seps.find? (fun sep => occursIn sep (toLowerStr pa)) with
      | none => pa
      | some sep => splitHead pa sep := by
  induction seps with
  | nil => rfl
  | cons sep rest ih =>
    by_cases h : occursIn sep (toLowerStr pa)
    · simp [gpaLoop, List.find?_cons, h]
    · simp [gpaLoop, List.find?_cons, h, ih]

/-- Claim-side description of the amended C5 behavior: the chosen separator
is the first in list order whose lowercase form occurs in the lowercased
artist string; the split is case-sensitive on the original string, so when
the chosen separator does not occur literally the whole trimmed string
comes back. -/
def primaryArtistAmended (s : Str) : Str :=
  if s.isEmpty then []
  else
    match artistSeparators.find? (fun sep => occursIn sep (toLowerStr s)) with
    | none => trimStr s
    | some sep => trimStr (splitHead s sep)

/-- C5 counterexample: in `A AND B feat. C` the claim picks the first
list-order separator occurring in the string, which is `" feat. "` under a
case-sensitive reading (and `" and "` under a case-insensitive one), and
predicts the trimmed text before it; the code instead tests `" and "`
against the lowercased string, splits the original where `" and "` does not
occur, stops, and returns the whole string. -/
theorem C5_counterexample :
    get_primary_artist "A AND B feat. C".data = "A AND B feat. C".data ∧
    get_primary_artist "A AND B feat. C".data ≠ "A AND B".data ∧
    get_primary_artist "A AND B feat. C".data ≠ "A".data := by decide

/-- C5 amended: `get_primary_artist` picks the first separator in list
order that occurs in the lowercased string, then returns the trimmed
prefix of the original string before that separator's first case-sensitive
occurrence (the whole trimmed string when it does not occur literally); no
separator later in the list is tried after the first case-insensitive
hit. -/
theorem C5_amended (s : Str) : get_primary_artist s = primaryArtistAmended s := by
  unfold get_primary_artist primaryArtistAmended
  by_cases hs : s.isEmpty
  · simp [hs]
  · simp only [hs, Bool.false_eq_true, if_false]
    rw [gpaLoop_eq_find]
    cases hf : artistSeparators.find? fun sep => occursIn sep (toLowerStr s) <;> simp

/-! ## Claim C2: search-call bounds of the resolver -/

theorem albumLoop_count_le (cleaned : Str) (l : List AlbumC) :
    (albumLoop cleaned l).2 ≤ l.length := by
  induction l with
  | nil => simp [albumLoop]
  | cons alb rest ih =>
    unfold albumLoop
    cases alb.tracksRes with
    | none =>
      dsimp only
      simp only [List.length_cons]
      omega
    | some ts =>
      cases hf : ts.find? fun tr => fuzzy_match_words tr.name cleaned defaultThreshold with
      | some tr => simp [hf]
      | none =>
        simp only [hf, List.length_cons]
        omega

theorem search_in_album_bounds (o : SessionO) (t : SrcTrack) (cleaned : Str) :
    (search_track_in_album o t cleaned).2.1 ≤ 1 ∧
    (search_track_in_album o t cleaned).2.2 ≤ 3 := by
  unfold search_track_in_album
  split_ifs
  · simp
  · refine ⟨le_refl 1, ?_⟩
    calc (albumLoop cleaned ((o.searchAlbums _).take 3)).2
        ≤ ((o.searchAlbums _).take 3).length := albumLoop_count_le _ _
      _ ≤ 3 := by simp [List.length_take]

/-- C2 counterexample: a track with a parenthesized title, a multi-artist
string and an album name, against an oracle returning nothing, drives the
resolver through all four `session.search` calls: the two track searches of
tiers 1-3, the primary-artist search of tier 4 and the album search of
tier 5 — more than the claimed three. -/
theorem C2_counterexample :
    (find_best_track_match oEmpty tWorst).2.1 = 4 ∧
    ¬(find_best_track_match oEmpty tWorst).2.1 ≤ 3 := by decide

/-- C2 amended: one resolver call issues at most 4 catalog search queries
(the unconditional track search, the cleaned-name re-search, the
primary-artist search and the album search) and at most 3 album
track-listing calls. -/
theorem C2_amended (o : SessionO) (t : SrcTrack) :
    (find_best_track_match o t).2.1 ≤ 4 ∧ (find_best_track_match o t).2.2 ≤ 3 := by
  obtain ⟨hb1, hb2⟩ := search_in_album_bounds o t (clean_track_name t.track_name)
  unfold find_best_track_match
  dsimp only
  split
  · simp
  · split
    · split_ifs <;> simp
    · split
      · split_ifs <;> simp
      · split_ifs <;> refine ⟨?_, ?_⟩ <;> dsimp only <;> omega

/-! ## Claim C4: tier-1 Exact-ISRC acceptance -/

/-- C4 counterexample: the code never checks that the source ISRC is
present, so with an absent source ISRC the resolver accepts, via tier 1, a
candidate that exposes the `isrc` attribute with value `None`
(`None == None` in Python). -/
theorem C4_counterexample :
    tNoIsrc.isrc = none ∧
    tier1Find tNoIsrc.isrc (oNullIsrc.searchTracks (trackQuery tNoIsrc)) = some cNullIsrc ∧
    (find_best_track_match oNullIsrc tNoIsrc).1 = some cNullIsrc := by decide

/-- C4 amended: tier 1 accepts exactly the first top-5 candidate whose
`isrc` attribute is present and equal (as a possibly-null value) to the
source ISRC value — the source's presence is not required; whenever tier 1
accepts, the resolver returns that candidate; and a candidate lacking the
ISRC attribute is a non-match, never an error. -/
theorem C4_amended (o : SessionO) (t : SrcTrack) (c : Candidate)
    (h : tier1Find t.isrc (o.searchTracks (trackQuery t)) = some c) :
    (find_best_track_match o t).1 = some c ∧ c.isrcAttr = some t.isrc ∧
    ∀ (src : Option Str) (cands : List Candidate),
      (∀ c' ∈ cands, c'.isrcAttr = none) → tier1Find src cands = none := by
  have hprop := List.find?_some h
  have hattr : c.isrcAttr = some t.isrc := by
    cases hc : c.isrcAttr with
    | none => rw [hc] at hprop; exact absurd hprop (by simp)
    | some v =>
      rw [hc] at hprop
      simp only [beq_iff_eq] at hprop
      rw [hprop]
  have hne : (o.searchTracks (trackQuery t)).isEmpty = false := by
    cases hl : o.searchTracks (trackQuery t) with
    | nil =>
      rw [hl] at h
      exact absurd h (by simp [tier1Find])
    | cons a l => simp
  refine ⟨?_, hattr, ?_⟩
  · unfold find_best_track_match
    simp only [hne, Bool.false_eq_true, if_false, h]
  · intro src cands hall
    apply List.find?_eq_none.mpr
    intro c' hc'
    have := hall c' (List.mem_of_mem_take hc')
    simp [this]

/-- Witness for C4: a present and equal source/candidate ISRC pair is
accepted by tier 1 and returned by the resolver. -/
theorem C4_amended_witness :
    (find_best_track_match oWithIsrc tWithIsrc).1 = some cWithIsrc ∧
    cWithIsrc.isrcAttr = some tWithIsrc.isrc :=
  ⟨(C4_amended oWithIsrc tWithIsrc cWithIsrc (by decide)).1,
   (C4_amended oWithIsrc tWithIsrc cWithIsrc (by decide)).2.1⟩

/-! ## Claim C7: blank-ISRC tracks skip resolution -/

/-- C7: a track whose ISRC is absent or blank is logged as unresolved with
reason `isrc blank in input`; the step's whole event trace is that single
ledger write, so no resolver call and no search call is issued, for any
environment and any run state. -/
theorem C7_blank_isrc (env : EngineEnv) (uname : Str) (added : List Str)
    (t : SrcTrack) (h : strFalsy t.isrc = true) :
    processTrack env uname added t
      = .cont [.ledgerWrite "isrc blank in input".data]
          (some ⟨t.track_name, t.artist_names, "isrc blank in input".data⟩) none := by
  unfold processTrack
  simp only [h, if_true]
  rfl

/-- Witness for C7: both an absent (`None`) and a blank (`""`) ISRC take
the blank-ISRC path. -/
theorem C7_blank_isrc_witness :
    processTrack envBoom "U".data [] tNoIsrc
      = .cont [.ledgerWrite "isrc blank in input".data]
          (some ⟨tNoIsrc.track_name, tNoIsrc.artist_names, "isrc blank in input".data⟩) none ∧
    processTrack envBoom "U".data [] tBlankIsrc
      = .cont [.ledgerWrite "isrc blank in input".data]
          (some ⟨tBlankIsrc.track_name, tBlankIsrc.artist_names,
            "isrc blank in input".data⟩) none :=
  ⟨C7_blank_isrc envBoom "U".data [] tNoIsrc (by decide),
   C7_blank_isrc envBoom "U".data [] tBlankIsrc (by decide)⟩

/-! ## Claim C1: non-412 add failures -/

/-- C1 counterexample: a non-412 add failure is re-raised (line 455) and
caught by the outer per-track handler (line 474), so the logged reason
starts with `search error: `, not with `error after retries` as the claim
states. The single `addCall` in the trace shows the add was not retried. -/
theorem C1_counterexample :
    processTrack envBoom "U".data [] tPlain
      = .cont [.resolveCall, .addCall, .ledgerWrite "search error: boom".data]
          (some ⟨tPlain.track_name, tPlain.artist_names, "search error: boom".data⟩) none ∧
    "error after retries".data.isPrefixOf "search error: boom".data = false := by decide

/-- C1 amended: for every resolved track whose add attempt raises an
exception without the 412 signature, the engine does not retry the add
(exactly one `addCall` in the trace) and logs the track as unresolved with
a reason beginning `search error: ` followed by the exception message. -/
theorem C1_nonretry_search_error (env : EngineEnv) (uname : Str) (added : List Str)
    (t : SrcTrack) (c : Candidate) (m : Str)
    (hisrc : strFalsy t.isrc = false) (hkey : trackKey t ∉ added)
    (hres : env.resolve t = .ok (some c)) (hadd : env.add t 0 = .exn m)
    (h412 : is412 m = false) :
    processTrack env uname added t
      = .cont [.resolveCall, .addCall, .ledgerWrite ("search error: ".data ++ m)]
          (some ⟨t.track_name, t.artist_names, "search error: ".data ++ m⟩) none := by
  unfold processTrack
  simp only [hisrc, Bool.false_eq_true, if_false]
  rw [if_neg hkey, hres]
  unfold addPhase
  rw [hadd]
  simp only [h412, Bool.false_eq_true, if_false]
  rfl

/-- Witness for C1: the amended statement instantiated at the concrete
non-412 scenario. -/
theorem C1_nonretry_search_error_witness :
    processTrack envBoom "W".data [] tPlain
      = .cont [.resolveCall, .addCall, .ledgerWrite ("search error: ".data ++ "boom".data)]
          (some ⟨tPlain.track_name, tPlain.artist_names,
            "search error: ".data ++ "boom".data⟩) none :=
  C1_nonretry_search_error envBoom "W".data [] tPlain cFound "boom".data
    (by decide) (by decide) rfl rfl (by decide)

/-! ## Claim C10: exceptions escaping the per-track loop -/

/-- C10: when `create_playlist` raises (after the unique name is bound),
the handler returns the entire input track list with no ledger write; but
when the unique-name lookup itself raises — one of the claim's own
examples — the handler's f-string reads the never-assigned local
`unique_playlist_name` and raises an unbound-local error, so
`create_tidal_playlist` raises instead of returning the track list. -/
theorem C10_outer_exception_eval :
    create_tidal_playlist ceFailLookup "Favorites".data [tPlain]
      = .error handlerUnboundMsg ∧
    create_tidal_playlist ceFailCreate "Favorites".data [tPlain]
      = .ok (.returnedTracks [tPlain]) :=
  ⟨rfl, rfl⟩

/-! ## Claim C8: processing order -/

theorem processTrack_entry (env : EngineEnv) (uname : Str) (added : List Str)
    (t : SrcTrack) (evs : List Ev) (e : Entry) (key : Option Str)
    (h : processTrack env uname added t = .cont evs (some e) key) :
    e.name = t.track_name := by
  unfold processTrack addPhase at h
  split at h
  · cases h
    rfl
  · by_cases hk : trackKey t ∈ added
    · rw [if_pos hk] at h
      cases h
    · rw [if_neg hk] at h
      repeat' split at h
      all_goals (cases h <;> rfl)

theorem processTracks_names_sublist (env : EngineEnv) (uname : Str) :
    ∀ (ts : List SrcTrack) (added : List Str),
      List.Sublist ((processTracks env uname ts added).notFound.map Entry.name)
        (ts.map SrcTrack.track_name) := by
  intro ts
  induction ts with
  | nil =>
    intro added
    simp [processTracks]
  | cons t ts ih =>
    intro added
    unfold processTracks
    cases hstep : processTrack env uname added t with
    | halt evs => simp
    | cont evs ent key =>
      dsimp only
      cases ent with
      | none =>
        simpa using (ih _).cons t.track_name
      | some e =>
        have hname : e.name = t.track_name :=
          processTrack_entry env uname added t evs e key hstep
        simpa [hname] using (ih _).cons₂ t.track_name

/-- C8 counterexample: with three displayed playlists and the selection
`3,1`, the code processes playlist 1 then playlist 3 (the Python set of
indices is sorted ascending), not playlist 3 then playlist 1 as the
user listed them. -/
theorem C8_counterexample :
    mainOrder threePlaylists [Token.num 3, Token.num 1] = ["A".data, "C".data] ∧
    userListedOrder threePlaylists [Token.num 3, Token.num 1] = ["C".data, "A".data] ∧
    mainOrder threePlaylists [Token.num 3, Token.num 1]
      ≠ userListedOrder threePlaylists [Token.num 3, Token.num 1] := by
  have hparse : parse_playlist_selection [Token.num 3, Token.num 1] 3 = {1, 3} := by decide
  have hsort : ({1, 3} : Finset ℕ).sort (· ≤ ·) = [1, 3] := by
    rw [show ({1, 3} : Finset ℕ) = insert 1 {3} from rfl]
    rw [Finset.sort_insert (· ≤ ·) (by intro b hb; simp at hb; omega) (by decide)]
    rw [Finset.sort_singleton]
  have hmain : mainOrder threePlaylists [Token.num 3, Token.num 1] = ["A".data, "C".data] := by
    unfold mainOrder selectedPlaylists
    rw [show threePlaylists.length = 3 from rfl, hparse, hsort]
    rfl
  refine ⟨hmain, by decide, ?_⟩
  rw [hmain]
  decide

/-- C8 amended: the playlist processing order depends only on the set of
selected indices — any reordering of the user's input parts yields the same
processing order — and is the ascending-index order of the displayed list;
within one playlist, tracks are processed strictly in source order, so the
not-found names always form a subsequence of the source track names. -/
theorem C8_amended :
    (∀ (p : List Str) (ts ts' : List Token), ts.Perm ts' → mainOrder p ts = mainOrder p ts') ∧
    (∀ (tokens : List Token) (m : Nat),
      List.Sorted (· ≤ ·) ((parse_playlist_selection tokens m).sort (· ≤ ·))) ∧
    (∀ (env : EngineEnv) (uname : Str) (ts : List SrcTrack) (added : List Str),
      List.Sublist ((processTracks env uname ts added).notFound.map Entry.name)
        (ts.map SrcTrack.track_name)) := by
  refine ⟨?_, ?_, ?_⟩
  · intro p ts ts' hp
    have hps : parse_playlist_selection ts p.length = parse_playlist_selection ts' p.length := by
      unfold parse_playlist_selection
      haveI : RightCommutative fun (s : Finset Nat) tok => s ∪ tokenContrib p.length tok :=
        ⟨fun s a b => Finset.union_right_comm s _ _⟩
      exact hp.foldl_eq ∅
    unfold mainOrder
    rw [hps]
  · intro tokens m
    exact Finset.sort_sorted _ _
  · intro env uname ts added
    exact processTracks_names_sublist env uname ts added

/-- Witness for C8: the permutation hypothesis discharged at the concrete
selections `3,1` and `1,3`. -/
theorem C8_amended_witness :
    mainOrder threePlaylists [Token.num 3, Token.num 1]
      = mainOrder threePlaylists [Token.num 1, Token.num 3] :=
  C8_amended.1 threePlaylists [Token.num 3, Token.num 1] [Token.num 1, Token.num 3] (by decide)

/-! ## Claim C3: idempotence of the normalizer

The second application of `normalize_text` is analyzed stage by stage on
the output of the first: that output consists of lowercase-image word
characters separated by single spaces, so every stage except the keyword
scanners is the identity on it; the keyword scanners are the identity
exactly when no keyword literal survives in the output, which the
counterexample `re-mix` violates. -/

theorem tryFeatTok_some_isPrefixOf {lit l rem : Str} (h : tryFeatTok lit l = some rem) :
    lit.isPrefixOf l = true := by
  unfold tryFeatTok at h
  split_ifs at h with hp
  exact hp

theorem tryFeatTok_some_sub {lit l rem : Str} (h : tryFeatTok lit l = some rem) :
    rem ⊆ l := by
  unfold tryFeatTok at h
  split_ifs at h with hp
  dsimp only at h
  split at h
  · rename_i c rr heq
    split_ifs at h with hs
    have hrr : rr = rem := by injection h
    subst hrr
    split at heq
    · rename_i rr2 hdrop
      intro x hx
      refine List.drop_subset (List.length lit) l ?_
      rw [hdrop, heq]
      exact List.mem_cons_of_mem _ (List.mem_cons_of_mem _ hx)
    · intro x hx
      refine List.drop_subset (List.length lit) l ?_
      rw [heq]
      exact List.mem_cons_of_mem _ hx
  · exact absurd h (by simp)

theorem tryWordTok_some_isPrefixOf {lit l rem : Str} (h : tryWordTok lit l = some rem) :
    lit.isPrefixOf l = true := by
  unfold tryWordTok at h
  split_ifs at h with hp
  exact hp

theorem tryWordTok_some_sub {lit l rem : Str} (h : tryWordTok lit l = some rem) :
    rem ⊆ l := by
  unfold tryWordTok at h
  split_ifs at h with hp
  dsimp only at h
  split at h
  · cases h
    exact List.nil_subset l
  · rename_i c tl heq
    split_ifs at h with hw
    cases h
    exact List.drop_subset _ _

theorem matchFeat_some_isPrefixOf {l rem : Str} (h : matchFeat l = some rem) :
    ∃ lit ∈ featLits, lit.isPrefixOf l = true := by
  unfold matchFeat at h
  cases h1 : tryFeatTok "feat".data l with
  | some r1 => exact ⟨"feat".data, by decide, tryFeatTok_some_isPrefixOf h1⟩
  | none =>
    rw [h1] at h
    dsimp only [Option.orElse] at h
    cases h2 : tryFeatTok "featuring".data l with
    | some r2 => exact ⟨"featuring".data, by decide, tryFeatTok_some_isPrefixOf h2⟩
    | none =>
      rw [h2] at h
      dsimp only [Option.orElse] at h
      exact ⟨"ft".data, by decide, tryFeatTok_some_isPrefixOf h⟩

theorem matchFeat_some_sub {l rem : Str} (h : matchFeat l = some rem) : rem ⊆ l := by
  unfold matchFeat at h
  cases h1 : tryFeatTok "feat".data l with
  | some r1 =>
    rw [h1] at h
    dsimp only [Option.orElse] at h
    cases h
    exact tryFeatTok_some_sub h1
  | none =>
    rw [h1] at h
    dsimp only [Option.orElse] at h
    cases h2 : tryFeatTok "featuring".data l with
    | some r2 =>
      rw [h2] at h
      dsimp only [Option.orElse] at h
      cases h
      exact tryFeatTok_some_sub h2
    | none =>
      rw [h2] at h
      dsimp only [Option.orElse] at h
      exact tryFeatTok_some_sub h

theorem matchRemix_some_isPrefixOf {l rem : Str} (h : matchRemix l = some rem) :
    ∃ lit ∈ remixLits, lit.isPrefixOf l = true := by
  unfold matchRemix at h
  cases h1 : tryWordTok "remix".data l with
  | some r1 => exact ⟨"remix".data, by decide, tryWordTok_some_isPrefixOf h1⟩
  | none =>
    rw [h1] at h
    dsimp only [Option.orElse] at h
    cases h2 : tryWordTok "remaster".data l with
    | some r2 => exact ⟨"remaster".data, by decide, tryWordTok_some_isPrefixOf h2⟩
    | none =>
      rw [h2] at h
      dsimp only [Option.orElse] at h
      exact ⟨"remastered".data, by decide, tryWordTok_some_isPrefixOf h⟩

theorem matchRemix_some_sub {l rem : Str} (h : matchRemix l = some rem) : rem ⊆ l := by
  unfold matchRemix at h
  cases h1 : tryWordTok "remix".data l with
  | some r1 =>
    rw [h1] at h
    dsimp only [Option.orElse] at h
    cases h
    exact tryWordTok_some_sub h1
  | none =>
    rw [h1] at h
    dsimp only [Option.orElse] at h
    cases h2 : tryWordTok "remaster".data l with
    | some r2 =>
      rw [h2] at h
      dsimp only [Option.orElse] at h
      cases h
      exact tryWordTok_some_sub h2
    | none =>
      rw [h2] at h
      dsimp only [Option.orElse] at h
      exact tryWordTok_some_sub h

theorem occursIn_cons_eq (p : Str) (c : Char) (r : Str) :
    occursIn p (c :: r) = (p.isPrefixOf (c :: r) || occursIn p r) := rfl

theorem occursIn_tail {p : Str} {c : Char} {r : Str}
    (h : occursIn p (c :: r) = false) : occursIn p r = false := by
  rw [occursIn_cons_eq] at h
  exact (Bool.or_eq_false_iff.mp h).2

/-! Character-membership lemmas: every stage of the normalizer only deletes
characters or inserts single spaces. -/

theorem mem_rpAux : ∀ (buf : Option Str) (l : Str) (c : Char),
    c ∈ rpAux buf l → c ∈ buf.getD [] ∨ c ∈ l := by
  intro buf l
  induction l generalizing buf with
  | nil =>
    intro c hc
    cases buf with
    | none => simp [rpAux] at hc
    | some b =>
      simp only [rpAux] at hc
      rw [List.mem_reverse] at hc
      exact Or.inl hc
  | cons a r ih =>
    intro c hc
    cases buf with
    | none =>
      simp only [rpAux] at hc
      by_cases ha : a == '('
      · rw [if_pos ha] at hc
        rcases ih (some [a]) c hc with hb | hr
        · simp only [Option.getD_some, List.mem_singleton] at hb
          subst hb
          exact Or.inr (List.mem_cons_self _ _)
        · exact Or.inr (List.mem_cons_of_mem _ hr)
      · rw [if_neg ha] at hc
        rcases List.mem_cons.mp hc with rfl | hc'
        · exact Or.inr (List.mem_cons_self _ _)
        · rcases ih none c hc' with hb | hr
          · simp at hb
          · exact Or.inr (List.mem_cons_of_mem _ hr)
    | some b =>
      simp only [rpAux] at hc
      by_cases ha : a == ')'
      · rw [if_pos ha] at hc
        rcases ih none c hc with hb | hr
        · simp at hb
        · exact Or.inr (List.mem_cons_of_mem _ hr)
      · rw [if_neg ha] at hc
        rcases ih (some (a :: b)) c hc with hb | hr
        · simp only [Option.getD_some] at hb ⊢
          rcases List.mem_cons.mp hb with rfl | hbb
          · exact Or.inr (List.mem_cons_self _ _)
          · exact Or.inl hbb
        · exact Or.inr (List.mem_cons_of_mem _ hr)

theorem mem_removeParens {s : Str} {c : Char} (h : c ∈ removeParens s) : c ∈ s := by
  rcases mem_rpAux none s c h with hb | hs
  · simp at hb
  · exact hs

theorem mem_featGo : ∀ (fuel : Nat) (w : Bool) (l : Str) (c : Char),
    c ∈ featGo fuel w l → c ∈ l := by
  intro fuel
  induction fuel with
  | zero =>
    intro w l c hc
    exact hc
  | succ fuel ih =>
    intro w l c hc
    cases l with
    | nil => simp [featGo] at hc
    | cons a r =>
      simp only [featGo] at hc
      by_cases hw : w
      · rw [if_pos hw] at hc
        rcases List.mem_cons.mp hc with rfl | hc'
        · exact List.mem_cons_self _ _
        · exact List.mem_cons_of_mem _ (ih _ r c hc')
      · rw [if_neg hw] at hc
        cases hm : matchFeat (a :: r) with
        | some rem =>
          rw [hm] at hc
          exact matchFeat_some_sub hm (ih _ rem c hc)
        | none =>
          rw [hm] at hc
          rcases List.mem_cons.mp hc with rfl | hc'
          · exact List.mem_cons_self _ _
          · exact List.mem_cons_of_mem _ (ih _ r c hc')

theorem mem_remixGo : ∀ (fuel : Nat) (w : Bool) (l : Str) (c : Char),
    c ∈ remixGo fuel w l → c ∈ l := by
  intro fuel
  induction fuel with
  | zero =>
    intro w l c hc
    exact hc
  | succ fuel ih =>
    intro w l c hc
    cases l with
    | nil => simp [remixGo] at hc
    | cons a r =>
      simp only [remixGo] at hc
      by_cases hw : w
      · rw [if_pos hw] at hc
        rcases List.mem_cons.mp hc with rfl | hc'
        · exact List.mem_cons_self _ _
        · exact List.mem_cons_of_mem _ (ih _ r c hc')
      · rw [if_neg hw] at hc
        cases hm : matchRemix (a :: r) with
        | some rem =>
          rw [hm] at hc
          exact matchRemix_some_sub hm (ih _ rem c hc)
        | none =>
          rw [hm] at hc
          rcases List.mem_cons.mp hc with rfl | hc'
          · exact List.mem_cons_self _ _
          · exact List.mem_cons_of_mem _ (ih _ r c hc')

theorem groupStep_space {a : Char} (ha : isSpaceChar a = true) (acc : List Str) :
    groupStep a acc = [] :: acc := by
  unfold groupStep
  rw [if_pos ha]

theorem groupStep_word_nil {a : Char} (ha : isSpaceChar a = false) :
    groupStep a [] = [[a]] := by
  unfold groupStep
  rw [if_neg (by simp [ha])]

theorem groupStep_word_cons {a : Char} (ha : isSpaceChar a = false) (g : Str) (gs : List Str) :
    groupStep a (g :: gs) = (a :: g) :: gs := by
  unfold groupStep
  rw [if_neg (by simp [ha])]

theorem mem_groups : ∀ (s : Str) (g : Str) (c : Char),
    g ∈ s.foldr groupStep [] → c ∈ g → c ∈ s := by
  intro s
  induction s with
  | nil =>
    intro g c hg _
    simp at hg
  | cons a r ih =>
    intro g c hg hc
    simp only [List.foldr] at hg
    by_cases ha : isSpaceChar a
    · rw [groupStep_space ha] at hg
      rcases List.mem_cons.mp hg with rfl | hg'
      · simp at hc
      · exact List.mem_cons_of_mem _ (ih g c hg' hc)
    · have ha' : isSpaceChar a = false := by simpa using ha
      cases hG : r.foldr groupStep [] with
      | nil =>
        rw [hG, groupStep_word_nil ha'] at hg
        simp only [List.mem_singleton] at hg
        subst hg
        simp only [List.mem_singleton] at hc
        subst hc
        exact List.mem_cons_self _ _
      | cons g0 gs =>
        rw [hG, groupStep_word_cons ha'] at hg
        rcases List.mem_cons.mp hg with rfl | hg'
        · rcases List.mem_cons.mp hc with rfl | hc'
          · exact List.mem_cons_self _ _
          · exact List.mem_cons_of_mem _
              (ih g0 c (by rw [hG]; exact List.mem_cons_self _ _) hc')
        · exact List.mem_cons_of_mem _
            (ih g c (by rw [hG]; exact List.mem_cons_of_mem _ hg') hc)

theorem groups_no_space : ∀ (s : Str) (g : Str),
    g ∈ s.foldr groupStep [] → ∀ c ∈ g, isSpaceChar c = false := by
  intro s
  induction s with
  | nil =>
    intro g hg
    simp at hg
  | cons a r ih =>
    intro g hg c hc
    simp only [List.foldr] at hg
    by_cases ha : isSpaceChar a
    · rw [groupStep_space ha] at hg
      rcases List.mem_cons.mp hg with rfl | hg'
      · simp at hc
      · exact ih g hg' c hc
    · have ha' : isSpaceChar a = false := by simpa using ha
      cases hG : r.foldr groupStep [] with
      | nil =>
        rw [hG, groupStep_word_nil ha'] at hg
        simp only [List.mem_singleton] at hg
        subst hg
        simp only [List.mem_singleton] at hc
        subst hc
        exact ha'
      | cons g0 gs =>
        rw [hG, groupStep_word_cons ha'] at hg
        rcases List.mem_cons.mp hg with rfl | hg'
        · rcases List.mem_cons.mp hc with rfl | hc'
          · exact ha'
          · exact ih g0 (by rw [hG]; exact List.mem_cons_self _ _) c hc'
        · exact ih g (by rw [hG]; exact List.mem_cons_of_mem _ hg') c hc

theorem wordsOf_wf (s : Str) : ∀ w ∈ wordsOf s, w ≠ [] ∧ ∀ c ∈ w, isSpaceChar c = false := by
  intro w hw
  obtain ⟨hg, hne⟩ := List.mem_filter.mp hw
  refine ⟨?_, groups_no_space s w hg⟩
  intro hempty
  subst hempty
  simp at hne

theorem mem_wordsOf {s w : Str} {c : Char} (hw : w ∈ wordsOf s) (hc : c ∈ w) : c ∈ s :=
  mem_groups s w c (List.mem_filter.mp hw).1 hc

theorem mem_joinWords : ∀ (ws : List Str) (c : Char),
    c ∈ joinWords ws → c = ' ' ∨ ∃ w ∈ ws, c ∈ w := by
  intro ws
  induction ws with
  | nil =>
    intro c hc
    simp [joinWords] at hc
  | cons w ws ih =>
    intro c hc
    cases ws with
    | nil => exact Or.inr ⟨w, by simp, by simpa [joinWords] using hc⟩
    | cons w2 rest =>
      simp only [joinWords] at hc
      rcases List.mem_append.mp hc with hw | hrest
      · exact Or.inr ⟨w, by simp, hw⟩
      · rcases List.mem_cons.mp hrest with rfl | hj
        · exact Or.inl rfl
        · rcases ih c hj with h' | ⟨w', hw', hc'⟩
          · exact Or.inl h'
          · exact Or.inr ⟨w', List.mem_cons_of_mem _ hw', hc'⟩

theorem mem_collapseSpaces (x : Str) (c : Char) (hc : c ∈ collapseSpaces x) :
    c = ' ' ∨ (c ∈ x ∧ isSpaceChar c = false) := by
  unfold collapseSpaces at hc
  rcases mem_joinWords _ c hc with h | ⟨w, hw, hcw⟩
  · exact Or.inl h
  · exact Or.inr ⟨mem_wordsOf hw hcw, (wordsOf_wf x w hw).2 c hcw⟩

/-! Lowercasing facts for the second pass. -/

theorem toNat_ofNat_valid {n : Nat} (h : n.isValidChar) : (Char.ofNat n).toNat = n := by
  unfold Char.ofNat
  rw [dif_pos h]
  rfl

theorem toLower_eq_self_of_not_upper {c : Char}
    (h : ¬(65 ≤ c.toNat ∧ c.toNat ≤ 90)) : Char.toLower c = c := by
  unfold Char.toLower
  dsimp only
  rw [if_neg]
  exact fun hc => h ⟨hc.1, hc.2⟩

theorem toLower_not_upper (c : Char) :
    ¬(65 ≤ (Char.toLower c).toNat ∧ (Char.toLower c).toNat ≤ 90) := by
  unfold Char.toLower
  dsimp only
  split_ifs with h
  · have hv : (c.toNat + 32).isValidChar := Or.inl (by omega)
    rw [toNat_ofNat_valid hv]
    omega
  · exact fun hc => h ⟨hc.1, hc.2⟩

theorem toLower_toLower (c : Char) :
    Char.toLower (Char.toLower c) = Char.toLower c :=
  toLower_eq_self_of_not_upper (toLower_not_upper c)

theorem map_eq_self_of_eq : ∀ (l : List Char) (f : Char → Char),
    (∀ a ∈ l, f a = a) → l.map f = l := by
  intro l f
  induction l with
  | nil => intro _; rfl
  | cons a r ih =>
    intro h
    simp only [List.map]
    rw [h a (List.mem_cons_self _ _), ih fun x hx => h x (List.mem_cons_of_mem _ hx)]

/-- Every character of a normalized string is a word character or a single
space, and is a fixed point of lowercasing. -/
theorem normalize_chars (s : Str) (c : Char) (hc : c ∈ normalize_text s) :
    (isWordChar c = true ∨ c = ' ') ∧ Char.toLower c = c := by
  unfold normalize_text at hc
  dsimp only at hc
  rcases mem_collapseSpaces _ c hc with rfl | ⟨hcx, hnsp⟩
  · exact ⟨Or.inr rfl, by decide⟩
  · obtain ⟨hcd, hpred⟩ := List.mem_filter.mp hcx
    have hword : isWordChar c = true := by
      rcases Bool.or_eq_true_iff.mp hpred with h | h
      · exact h
      · rw [h] at hnsp
        cases hnsp
    have h1 := mem_remixGo _ _ _ c hcd
    have h2 := mem_featGo _ _ _ c h1
    have h3 := mem_removeParens h2
    obtain ⟨c0, _, rfl⟩ := List.mem_map.mp h3
    exact ⟨Or.inl hword, toLower_toLower c0⟩

/-! Identity of each stage on a clean string. -/

theorem rpAux_none_id : ∀ (l : Str), (∀ c ∈ l, c ≠ '(') → rpAux none l = l := by
  intro l
  induction l with
  | nil => intro _; rfl
  | cons a r ih =>
    intro h
    have ha : (a == '(') = false := by
      have := h a (List.mem_cons_self _ _)
      simpa using this
    simp only [rpAux, ha, Bool.false_eq_true, if_false]
    rw [ih fun c hc => h c (List.mem_cons_of_mem _ hc)]

theorem featGo_id : ∀ (fuel : Nat) (w : Bool) (l : Str),
    (∀ lit ∈ featLits, occursIn lit l = false) → featGo fuel w l = l := by
  intro fuel
  induction fuel with
  | zero =>
    intro w l _
    rfl
  | succ fuel ih =>
    intro w l hno
    cases l with
    | nil => rfl
    | cons a r =>
      have hr : ∀ lit ∈ featLits, occursIn lit r = false := fun lit hl =>
        occursIn_tail (hno lit hl)
      simp only [featGo]
      by_cases hw : w
      · rw [if_pos hw, ih (isWordChar a) r hr]
      · rw [if_neg hw]
        cases hm : matchFeat (a :: r) with
        | some rem =>
          obtain ⟨lit, hl, hpre⟩ := matchFeat_some_isPrefixOf hm
          have hocc := hno lit hl
          rw [occursIn_cons_eq, hpre] at hocc
          simp at hocc
        | none =>
          rw [ih (isWordChar a) r hr]

theorem remixGo_id : ∀ (fuel : Nat) (w : Bool) (l : Str),
    (∀ lit ∈ remixLits, occursIn lit l = false) → remixGo fuel w l = l := by
  intro fuel
  induction fuel with
  | zero =>
    intro w l _
    rfl
  | succ fuel ih =>
    intro w l hno
    cases l with
    | nil => rfl
    | cons a r =>
      have hr : ∀ lit ∈ remixLits, occursIn lit r = false := fun lit hl =>
        occursIn_tail (hno lit hl)
      simp only [remixGo]
      by_cases hw : w
      · rw [if_pos hw, ih (isWordChar a) r hr]
      · rw [if_neg hw]
        cases hm : matchRemix (a :: r) with
        | some rem =>
          obtain ⟨lit, hl, hpre⟩ := matchRemix_some_isPrefixOf hm
          have hocc := hno lit hl
          rw [occursIn_cons_eq, hpre] at hocc
          simp at hocc
        | none =>
          rw [ih (isWordChar a) r hr]

theorem foldr_groupStep_words : ∀ (w : Str), (∀ c ∈ w, isSpaceChar c = false) →
    ∀ gs : List Str, w.foldr groupStep ([] :: gs) = w :: gs := by
  intro w
  induction w with
  | nil =>
    intro _ gs
    rfl
  | cons a w' ih =>
    intro hw gs
    have ha : isSpaceChar a = false := hw a (List.mem_cons_self _ _)
    simp only [List.foldr]
    rw [ih (fun c hc => hw c (List.mem_cons_of_mem _ hc)) gs]
    simp [groupStep, ha]

theorem foldr_groupStep_word_nil : ∀ (w : Str), (∀ c ∈ w, isSpaceChar c = false) →
    w ≠ [] → w.foldr groupStep [] = [w] := by
  intro w
  induction w with
  | nil =>
    intro _ h
    exact absurd rfl h
  | cons a w' ih =>
    intro hw _
    have ha : isSpaceChar a = false := hw a (List.mem_cons_self _ _)
    rcases w' with _ | ⟨b, w''⟩
    · simp [List.foldr, groupStep, ha]
    · simp only [List.foldr] at ih ⊢
      rw [ih (fun c hc => hw c (List.mem_cons_of_mem _ hc)) (by simp)]
      simp [groupStep, ha]

theorem wordsOf_joinWords : ∀ (ws : List Str),
    (∀ w ∈ ws, w ≠ [] ∧ ∀ c ∈ w, isSpaceChar c = false) →
    wordsOf (joinWords ws) = ws := by
  intro ws
  induction ws with
  | nil =>
    intro _
    rfl
  | cons w ws ih =>
    intro hws
    obtain ⟨hne, hsp⟩ := hws w (List.mem_cons_self _ _)
    have hwe : w.isEmpty = false := by
      cases w
      · exact absurd rfl hne
      · rfl
    cases ws with
    | nil =>
      show wordsOf (joinWords [w]) = [w]
      unfold wordsOf
      rw [show joinWords [w] = w from rfl]
      rw [foldr_groupStep_word_nil w hsp hne]
      simp [List.filter_cons, hwe]
    | cons w2 rest =>
      have htail := ih fun x hx => hws x (List.mem_cons_of_mem _ hx)
      show wordsOf (joinWords (w :: w2 :: rest)) = w :: w2 :: rest
      unfold wordsOf at htail ⊢
      rw [show joinWords (w :: w2 :: rest) = w ++ ' ' :: joinWords (w2 :: rest) from rfl]
      rw [List.foldr_append]
      rw [show (' ' :: joinWords (w2 :: rest)).foldr groupStep []
          = groupStep ' ' ((joinWords (w2 :: rest)).foldr groupStep []) from rfl]
      rw [groupStep_space (by decide) ((joinWords (w2 :: rest)).foldr groupStep [])]
      rw [foldr_groupStep_words w hsp]
      rw [List.filter_cons]
      simp only [hwe, Bool.not_false, if_true]
      rw [htail]

theorem collapseSpaces_collapse (e : Str) :
    collapseSpaces (collapseSpaces e) = collapseSpaces e := by
  unfold collapseSpaces
  rw [wordsOf_joinWords (wordsOf e) (wordsOf_wf e)]

/-- C3 counterexample: `normalize("re-mix")` is `"remix"` (the hyphen is
punctuation, removed after the keyword regexes have run), and normalizing
again removes the word `remix`, so the normalizer is not idempotent. -/
theorem C3_counterexample :
    normalize_text (normalize_text "re-mix".data) ≠ normalize_text "re-mix".data ∧
    normalize_text "re-mix".data = "remix".data ∧
    normalize_text (normalize_text "re-mix".data) = [] := by decide

/-- C3 amended: normalization is idempotent on every input whose normalized
form contains none of the removed keywords (feat, featuring, ft, remix,
remaster, remastered) as a substring; in general a second application can
differ, because punctuation stripping runs after the keyword regexes and
can create new keyword occurrences. -/
theorem C3_amended (s : Str)
    (h : ∀ lit ∈ keywordLits, occursIn lit (normalize_text s) = false) :
    normalize_text (normalize_text s) = normalize_text s := by
  have hfeat : ∀ lit ∈ featLits, occursIn lit (normalize_text s) = false := fun lit hl =>
    h lit (by unfold keywordLits; exact List.mem_append_left _ hl)
  have hremix : ∀ lit ∈ remixLits, occursIn lit (normalize_text s) = false := fun lit hl =>
    h lit (by unfold keywordLits; exact List.mem_append_right _ hl)
  have hA : ∀ c ∈ normalize_text s, isWordChar c = true ∨ c = ' ' := fun c hc =>
    (normalize_chars s c hc).1
  have hB : ∀ c ∈ normalize_text s, Char.toLower c = c := fun c hc =>
    (normalize_chars s c hc).2
  have step1 : toLowerStr (normalize_text s) = normalize_text s :=
    map_eq_self_of_eq _ _ hB
  have step2 : removeParens (normalize_text s) = normalize_text s := by
    apply rpAux_none_id
    intro c hc
    rcases hA c hc with hw | rfl
    · intro heq
      subst heq
      exact absurd hw (by decide)
    · decide
  have step3 : featGo (normalize_text s).length false (normalize_text s) = normalize_text s :=
    featGo_id _ false _ hfeat
  have step4 : remixGo (normalize_text s).length false (normalize_text s) = normalize_text s :=
    remixGo_id _ false _ hremix
  have step5 : stripPunct (normalize_text s) = normalize_text s := by
    apply List.filter_eq_self.mpr
    intro c hc
    rcases hA c hc with hw | rfl
    · simp [hw]
    · decide
  have step6 : collapseSpaces (normalize_text s) = normalize_text s := by
    conv_lhs => rw [show normalize_text s
      = collapseSpaces (stripPunct (remixGo
          (featGo (removeParens (toLowerStr s)).length false
            (removeParens (toLowerStr s))).length false
          (featGo (removeParens (toLowerStr s)).length false
            (removeParens (toLowerStr s))))) from rfl]
    rw [collapseSpaces_collapse]
    rfl
  set t := normalize_text s with ht
  show normalize_text t = t
  unfold normalize_text
  dsimp only
  rw [step1, step2, step3, step4, step5, step6]

/-- Witness for C3: a keyword-free input instantiating the amended
idempotence statement. -/
theorem C3_amended_witness :
    normalize_text (normalize_text "Hello World".data) = normalize_text "Hello World".data :=
  C3_amended "Hello World".data (by decide)

end AutoTidal
